import Mathlib

/-!
Shallow embedding of `process_subscriptions.py` (v2sub repository).

The script aggregates v2ray proxy-configuration entries from remote
subscription endpoints: it parses a source list into URLs, fetches each URL,
classifies the body as base64 or raw, decodes and splits it into candidate
entries, filters entries by recognized scheme, merges them into a
duplicate-free aggregate, and writes the sorted aggregate one entry per line.

Python strings are modelled as Lean `String` (sequences of unicode scalar
values), bytes as `List Nat` with each element `< 256`.  The I/O boundaries
(HTTP fetch, file read/write) are modelled as explicit inputs and outputs:
the fetcher is a function from URL to returned text, and the output file is
the `String` the writer produces.
-/

namespace V2Sub

/-- Code points that `str.strip()` removes in CPython (Py_UNICODE_ISSPACE). -/
def pySpaceCodes : List Nat :=
  [9, 10, 11, 12, 13, 28, 29, 30, 31, 32, 133, 160, 5760,
   8192, 8193, 8194, 8195, 8196, 8197, 8198, 8199, 8200, 8201, 8202,
   8232, 8233, 8239, 8287, 12288]

/-- Whether a character counts as whitespace for Python `str.strip()`. -/
def isPySpace (c : Char) : Bool := pySpaceCodes.contains c.toNat

/-- List-level model of Python `str.strip()`: drop whitespace at both ends. -/
def pyStripList (l : List Char) : List Char :=
  ((l.dropWhile isPySpace).reverse.dropWhile isPySpace).reverse

/-- Python `str.strip()`. -/
def pyStrip (s : String) : String := String.mk (pyStripList s.data)

/-- List-level model of Python `str.split(sep)` for a one-character
separator: split at every occurrence, keeping empty fragments, so the result
is always non-empty. -/
def splitOnChar (sep : Char) : List Char → List (List Char)
  | [] => [[]]
  | c :: rest =>
    match splitOnChar sep rest with
    | [] => [[c]]
    | g :: gs => if c = sep then [] :: g :: gs else (c :: g) :: gs

/-- Python `s.split(sep)` for a one-character separator. -/
def pySplit (s : String) (sep : Char) : List String :=
  (splitOnChar sep s.data).map String.mk

/-- The list comprehension `[line.strip() for line in s.split(sep) if line.strip()]`
used throughout the script (with the filter applied to the mapped value). -/
def stripSplit (s : String) (sep : Char) : List String :=
  ((pySplit s sep).map pyStrip).filter (fun line => line != "")

/-- Value of a standard-alphabet base64 character (`table_a2b_base64`);
`none` for characters outside the alphabet. -/
def b64Table (c : Char) : Option Nat :=
  if 'A' ≤ c ∧ c ≤ 'Z' then some (c.toNat - 65)
  else if 'a' ≤ c ∧ c ≤ 'z' then some (c.toNat - 97 + 26)
  else if '0' ≤ c ∧ c ≤ '9' then some (c.toNat - 48 + 52)
  else if c = '+' then some 62
  else if c = '/' then some 63
  else none

/-- Standard-alphabet base64 character for a 6-bit value. -/
def b64Char (n : Nat) : Char :=
  if n < 26 then Char.ofNat (65 + n)
  else if n < 52 then Char.ofNat (97 + (n - 26))
  else if n < 62 then Char.ofNat (48 + (n - 52))
  else if n = 62 then '+'
  else '/'

/-- CPython `binascii.a2b_base64` in non-strict mode, as called by
`base64.b64decode(s)`: characters outside the alphabet are skipped; a pad
character `=` is counted only when at least two data characters of the
current quad have been seen, and decoding terminates successfully once the
quad position plus the pad count reaches four; bytes are emitted eagerly as
soon as eight bits are available; at end of input a quad position other than
zero is an error (`none`). -/
def a2bLoop : List Char → Nat → Nat → Nat → List Nat → Option (List Nat)
  | [], quadPos, _, _, acc => if quadPos = 0 then some acc.reverse else none
  | c :: rest, quadPos, leftchar, pads, acc =>
    if c = '=' then
      if 2 ≤ quadPos then
        if 4 ≤ quadPos + (pads + 1) then some acc.reverse
        else a2bLoop rest quadPos leftchar (pads + 1) acc
      else a2bLoop rest quadPos leftchar pads acc
    else
      match b64Table c with
      | none => a2bLoop rest quadPos leftchar pads acc
      | some v =>
        match quadPos with
        | 0 => a2bLoop rest 1 v 0 acc
        | 1 => a2bLoop rest 2 ((leftchar * 64 + v) % 16) 0
            (((leftchar * 64 + v) / 16) :: acc)
        | 2 => a2bLoop rest 3 ((leftchar * 64 + v) % 4) 0
            (((leftchar * 64 + v) / 4) :: acc)
        | _ => a2bLoop rest 0 0 0 ((leftchar * 64 + v) :: acc)

/-- Python `base64.b64decode(s)` on a `str` argument: the string is first
encoded as ASCII (failing on any code point `≥ 128`), then decoded by the
non-strict `a2b_base64` loop.  `none` models a raised exception. -/
def pyB64Decode (s : String) : Option (List Nat) :=
  if s.data.all (fun c => c.toNat < 128) then a2bLoop s.data 0 0 0 [] else none

/-- Python `base64.b64encode` (canonical encoding with `=` padding),
producing the character list of the ASCII result. -/
def b64encodeBytes : List Nat → List Char
  | [] => []
  | [a] => [b64Char (a / 4), b64Char (a % 4 * 16), '=', '=']
  | [a, b] => [b64Char (a / 4), b64Char (a % 4 * 16 + b / 16),
      b64Char (b % 16 * 4), '=']
  | a :: b :: c :: rest =>
      b64Char (a / 4) :: b64Char (a % 4 * 16 + b / 16) ::
      b64Char (b % 16 * 4 + c / 64) :: b64Char (c % 64) :: b64encodeBytes rest

/-- Python `base64.b64encode(bs).decode('utf-8')` as a `String`. -/
def b64encodeStr (bs : List Nat) : String := String.mk (b64encodeBytes bs)

/-- Strict UTF-8 decoding of a byte list, as Python `bytes.decode('utf-8')`:
rejects overlong encodings, surrogates, code points above `0x10FFFF`, stray
continuation bytes and truncated sequences.  `none` models a raised
`UnicodeDecodeError`. -/
def utf8Decode : List Nat → Option (List Char)
  | [] => some []
  | b1 :: rest =>
    if b1 < 128 then
      match utf8Decode rest with
      | some cs => some (Char.ofNat b1 :: cs)
      | none => none
    else if 194 ≤ b1 ∧ b1 ≤ 223 then
      match rest with
      | b2 :: rest2 =>
        if 128 ≤ b2 ∧ b2 ≤ 191 then
          match utf8Decode rest2 with
          | some cs => some (Char.ofNat ((b1 - 192) * 64 + (b2 - 128)) :: cs)
          | none => none
        else none
      | [] => none
    else if 224 ≤ b1 ∧ b1 ≤ 239 then
      match rest with
      | b2 :: b3 :: rest3 =>
        if ((if b1 = 224 then 160 else 128) ≤ b2 ∧
              b2 ≤ (if b1 = 237 then 159 else 191)) ∧
            (128 ≤ b3 ∧ b3 ≤ 191) then
          match utf8Decode rest3 with
          | some cs =>
              some (Char.ofNat ((b1 - 224) * 4096 + (b2 - 128) * 64 +
                (b3 - 128)) :: cs)
          | none => none
        else none
      | _ => none
    else if 240 ≤ b1 ∧ b1 ≤ 244 then
      match rest with
      | b2 :: b3 :: b4 :: rest4 =>
        if ((if b1 = 240 then 144 else 128) ≤ b2 ∧
              b2 ≤ (if b1 = 244 then 143 else 191)) ∧
            (128 ≤ b3 ∧ b3 ≤ 191) ∧ (128 ≤ b4 ∧ b4 ≤ 191) then
          match utf8Decode rest4 with
          | some cs =>
              some (Char.ofNat ((b1 - 240) * 262144 + (b2 - 128) * 4096 +
                (b3 - 128) * 64 + (b4 - 128)) :: cs)
          | none => none
        else none
      | _ => none
    else none

/-- UTF-8 encoding of one unicode scalar value. -/
def utf8EncodeChar (c : Char) : List Nat :=
  let n := c.toNat
  if n < 128 then [n]
  else if n < 2048 then [192 + n / 64, 128 + n % 64]
  else if n < 65536 then
    [224 + n / 4096, 128 + n / 64 % 64, 128 + n % 64]
  else
    [240 + n / 262144, 128 + n / 4096 % 64, 128 + n / 64 % 64, 128 + n % 64]

/-- UTF-8 encoding of a string. -/
def utf8Encode (s : String) : List Nat := (s.data.map utf8EncodeChar).flatten

/-- `is_base64_encoded` (lines 19-27): decode, re-encode, and compare with
the original text; any exception yields `False`. -/
def is_base64_encoded (text : String) : Bool :=
  match pyB64Decode text with
  | some decoded => b64encodeStr decoded == text
  | none => false

/-- Result of one HTTP GET at the `requests` boundary: either the response
text of a successful (2xx) response, or a failure (network error, timeout,
or non-2xx status raised by `raise_for_status`). -/
inductive FetchOutcome where
  | success (body : String)
  | failure
deriving DecidableEq

/-- `fetch_subscription_content` (lines 29-40): returns the response text on
success and the empty string when `requests` raises. -/
def fetch_subscription_content : FetchOutcome → String
  | .success body => body
  | .failure => ""

/-- `decode_base64_configs` (lines 42-52): base64-decode the whole content,
interpret the bytes as UTF-8 text, split into stripped non-empty lines; any
exception yields the empty list. -/
def decode_base64_configs (content : String) : List String :=
  match pyB64Decode content with
  | none => []
  | some bs =>
    match utf8Decode bs with
    | none => []
    | some cs => stripSplit (String.mk cs) '\n'

/-- `extract_configs_from_content` (lines 54-65): classify the stripped
content; on `Base64` decode it, otherwise split the raw content into
stripped non-empty lines. -/
def extract_configs_from_content (content : String) : List String :=
  if is_base64_encoded (pyStrip content) then decode_base64_configs content
  else stripSplit content '\n'

/-- The recognized scheme tags of the filter on line 104. -/
def schemeTags : List String :=
  ["vmess://", "vless://", "ss://", "trojan://", "hysteria2://"]

/-- The guard `config and config.startswith((...))` on line 104. -/
def keepConfig (config : String) : Bool :=
  config != "" && schemeTags.any (fun p => p.data.isPrefixOf config.data)

/-- `all_configs.add(config)`: the Python set is modelled as a
duplicate-free list, so adding an element already present is a no-op. -/
def setAdd (acc : List String) (c : String) : List String :=
  if c ∈ acc then acc else acc ++ [c]

/-- The inner loop of lines 103-105: fold every extracted config that
passes the scheme filter into the aggregate set. -/
def addConfigs (acc : List String) (configs : List String) : List String :=
  configs.foldl (fun a config => if keepConfig config then setAdd a config else a) acc

/-- The body of the per-URL loop (lines 95-107) applied to one fetched
content string: a truthy (non-empty) content is extracted and aggregated
and the loop prints the found count (`true`); otherwise the aggregate is
unchanged and the loop prints the failed-fetch warning (`false`). -/
def processOneBody (acc : List String) (content : String) :
    List String × Bool :=
  if content != "" then
    (addConfigs acc (extract_configs_from_content content), true)
  else (acc, false)

/-- The per-URL loop of lines 91-110, given the fetcher as a function from
URL to returned text. -/
def processURLs (fetch : String → String) (acc : List String)
    (urls : List String) : List String :=
  urls.foldl (fun a url => (processOneBody a (fetch url)).1) acc

/-- The comma fragments of one already-stripped line (line 86). -/
def sourceLineFragments (line : String) : List String :=
  ((pySplit line ',').map pyStrip).filter (fun u => u != "")

/-- The URL-collection loop of lines 76-88: strip the whole file content,
split into stripped non-empty lines, and split each line on commas keeping
the stripped non-empty fragments, in order. -/
def parseSourceList (raw : String) : List String :=
  ((stripSplit (pyStrip raw) '\n').map sourceLineFragments).flatten

/-- `process_subscription_file` (lines 67-115) given the source-list file
content and the fetcher: the final aggregate set. -/
def process_subscription_file (fetch : String → String) (subContent : String) :
    List String :=
  processURLs fetch [] (parseSourceList subContent)

/-- The cumulative writes `file.write(config + '\n')` of line 122. -/
def linesOut : List String → String
  | [] => ""
  | c :: cs => c ++ "\n" ++ linesOut cs

/-- Lexicographic comparison of character lists by unicode code point, the
order by which Python `sorted` compares strings. -/
def leChars : List Char → List Char → Bool
  | [], _ => true
  | _ :: _, [] => false
  | a :: as, b :: bs =>
    if a.toNat < b.toNat then true
    else if b.toNat < a.toNat then false
    else leChars as bs

/-- Python string ordering (code-point lexicographic), as a relation. -/
def strLe (a b : String) : Prop := leChars a.data b.data = true

instance : DecidableRel strLe := fun _ _ => inferInstanceAs (Decidable (_ = true))

/-- `write_sum_file` (lines 117-125): the content written to the output
file, the sorted aggregate one entry per line. -/
def write_sum_file (configs : List String) : String :=
  linesOut (List.insertionSort strLe configs)

/-- The pipeline of `main` (lines 127-144) up to the output-file content. -/
def runPipeline (fetch : String → String) (subContent : String) : String :=
  write_sum_file (process_subscription_file fetch subContent)

/-- The fetcher of the end-to-end scenario: `http://a` returns a raw body,
`http://b` returns the base64 encoding of a config list. -/
def scenarioFetch : String → String := fun url =>
  if url = "http://a" then "vless://x\nfoo\nvmess://y\n"
  else if url = "http://b" then b64encodeStr (utf8Encode "vmess://y\nss://z\n")
  else ""

/-- Append `x` to the last fragment of a non-empty fragment list (used to
describe how `splitOnChar` reacts to appending a non-separator character). -/
def appendToLast (x : List Char) : List (List Char) → List (List Char)
  | [] => [x]
  | [g] => [g ++ x]
  | g :: gs => g :: appendToLast x gs

/-- Modelled from the spec (§4.1 Source List Parser) for comparison with the
code's URL-collection loop: split the raw text on newlines, trim each line,
split each non-empty line on commas trimming each fragment, discard empty
fragments at every stage, and keep the original order — stated without the
code's initial whole-content strip. -/
def specSourceListParse (raw : String) : List String :=
  ((stripSplit raw '\n').map sourceLineFragments).flatten

/-! ### Properties of the base64 encoder and decoder -/

theorem b64Table_b64Char : ∀ n : Nat, n < 64 → b64Table (b64Char n) = some n := by
  decide

theorem b64Char_ne_pad : ∀ n : Nat, n < 64 → b64Char n ≠ '=' := by
  decide

theorem b64Char_ascii_not_space :
    ∀ n : Nat, n < 64 → (b64Char n).toNat < 128 ∧ isPySpace (b64Char n) = false := by
  decide

theorem a2bLoop_data0 {c : Char} {v : Nat} (hc : c ≠ '=') (hv : b64Table c = some v)
    (rest : List Char) (left pads : Nat) (acc : List Nat) :
    a2bLoop (c :: rest) 0 left pads acc = a2bLoop rest 1 v 0 acc := by
  simp [a2bLoop, hc, hv]

theorem a2bLoop_data1 {c : Char} {v : Nat} (hc : c ≠ '=') (hv : b64Table c = some v)
    (rest : List Char) (left pads : Nat) (acc : List Nat) :
    a2bLoop (c :: rest) 1 left pads acc =
      a2bLoop rest 2 ((left * 64 + v) % 16) 0 (((left * 64 + v) / 16) :: acc) := by
  simp [a2bLoop, hc, hv]

theorem a2bLoop_data2 {c : Char} {v : Nat} (hc : c ≠ '=') (hv : b64Table c = some v)
    (rest : List Char) (left pads : Nat) (acc : List Nat) :
    a2bLoop (c :: rest) 2 left pads acc =
      a2bLoop rest 3 ((left * 64 + v) % 4) 0 (((left * 64 + v) / 4) :: acc) := by
  simp [a2bLoop, hc, hv]

theorem a2bLoop_data3 {c : Char} {v : Nat} (hc : c ≠ '=') (hv : b64Table c = some v)
    (rest : List Char) (left pads : Nat) (acc : List Nat) :
    a2bLoop (c :: rest) 3 left pads acc =
      a2bLoop rest 0 0 0 ((left * 64 + v) :: acc) := by
  simp [a2bLoop, hc, hv]

theorem a2bLoop_pad_done {q pads : Nat} (h2 : 2 ≤ q) (h4 : 4 ≤ q + (pads + 1))
    (rest : List Char) (left : Nat) (acc : List Nat) :
    a2bLoop ('=' :: rest) q left pads acc = some acc.reverse := by
  simp [a2bLoop, h2, h4]

theorem a2bLoop_pad_cont {q pads : Nat} (h2 : 2 ≤ q) (h4 : ¬ 4 ≤ q + (pads + 1))
    (rest : List Char) (left : Nat) (acc : List Nat) :
    a2bLoop ('=' :: rest) q left pads acc = a2bLoop rest q left (pads + 1) acc := by
  simp [a2bLoop, h2, h4]

/-- Decoding the canonical base64 character stream of a byte list recovers
exactly those bytes, for any starting accumulator. -/
theorem a2bLoop_encode :
    ∀ (B : List Nat), (∀ b ∈ B, b < 256) → ∀ acc : List Nat,
      a2bLoop (b64encodeBytes B) 0 0 0 acc = some (acc.reverse ++ B)
  | [], _, acc => by simp [b64encodeBytes, a2bLoop]
  | [a], h, acc => by
    have ha : a < 256 := h a (by simp)
    have h1 : a / 4 < 64 := by omega
    have h2 : a % 4 * 16 < 64 := by omega
    rw [show b64encodeBytes [a] =
        [b64Char (a / 4), b64Char (a % 4 * 16), '=', '='] from rfl,
      a2bLoop_data0 (b64Char_ne_pad _ h1) (b64Table_b64Char _ h1),
      a2bLoop_data1 (b64Char_ne_pad _ h2) (b64Table_b64Char _ h2),
      a2bLoop_pad_cont (by omega) (by omega),
      a2bLoop_pad_done (by omega) (by omega)]
    have : (a / 4 * 64 + a % 4 * 16) / 16 = a := by omega
    simp [this]
  | [a, b], h, acc => by
    have ha : a < 256 := h a (by simp)
    have hb : b < 256 := h b (by simp)
    have h1 : a / 4 < 64 := by omega
    have h2 : a % 4 * 16 + b / 16 < 64 := by omega
    have h3 : b % 16 * 4 < 64 := by omega
    rw [show b64encodeBytes [a, b] =
        [b64Char (a / 4), b64Char (a % 4 * 16 + b / 16), b64Char (b % 16 * 4), '='] from rfl,
      a2bLoop_data0 (b64Char_ne_pad _ h1) (b64Table_b64Char _ h1),
      a2bLoop_data1 (b64Char_ne_pad _ h2) (b64Table_b64Char _ h2),
      a2bLoop_data2 (b64Char_ne_pad _ h3) (b64Table_b64Char _ h3),
      a2bLoop_pad_done (by omega) (by omega)]
    have e1 : (a / 4 * 64 + (a % 4 * 16 + b / 16)) / 16 = a := by omega
    have l1 : (a / 4 * 64 + (a % 4 * 16 + b / 16)) % 16 = b / 16 := by omega
    have e2 : (b / 16 * 64 + b % 16 * 4) / 4 = b := by omega
    rw [l1, e1, e2]
    simp
  | a :: b :: c :: rest, h, acc => by
    have ha : a < 256 := h a (by simp)
    have hb : b < 256 := h b (by simp)
    have hc : c < 256 := h c (by simp)
    have h1 : a / 4 < 64 := by omega
    have h2 : a % 4 * 16 + b / 16 < 64 := by omega
    have h3 : b % 16 * 4 + c / 64 < 64 := by omega
    have h4 : c % 64 < 64 := by omega
    rw [show b64encodeBytes (a :: b :: c :: rest) =
        b64Char (a / 4) :: b64Char (a % 4 * 16 + b / 16) ::
          b64Char (b % 16 * 4 + c / 64) :: b64Char (c % 64) ::
          b64encodeBytes rest from rfl,
      a2bLoop_data0 (b64Char_ne_pad _ h1) (b64Table_b64Char _ h1),
      a2bLoop_data1 (b64Char_ne_pad _ h2) (b64Table_b64Char _ h2),
      a2bLoop_data2 (b64Char_ne_pad _ h3) (b64Table_b64Char _ h3),
      a2bLoop_data3 (b64Char_ne_pad _ h4) (b64Table_b64Char _ h4)]
    have e1 : (a / 4 * 64 + (a % 4 * 16 + b / 16)) / 16 = a := by omega
    have l1 : (a / 4 * 64 + (a % 4 * 16 + b / 16)) % 16 = b / 16 := by omega
    have e2 : (b / 16 * 64 + (b % 16 * 4 + c / 64)) / 4 = b := by omega
    have l2 : (b / 16 * 64 + (b % 16 * 4 + c / 64)) % 4 = c / 64 := by omega
    have e3 : c / 64 * 64 + c % 64 = c := by omega
    rw [l1, e1, l2, e2, e3,
      a2bLoop_encode rest (fun x hx => h x (by simp [hx])) (c :: b :: a :: acc)]
    simp

/-- Every character the canonical encoder emits is ASCII and is not Python
whitespace. -/
theorem b64encodeBytes_chars :
    ∀ (B : List Nat), (∀ b ∈ B, b < 256) →
      ∀ ch ∈ b64encodeBytes B, ch.toNat < 128 ∧ isPySpace ch = false
  | [], _ => by simp [b64encodeBytes]
  | [a], h => by
    have ha : a < 256 := h a (by simp)
    have h1 := b64Char_ascii_not_space (a / 4) (by omega)
    have h2 := b64Char_ascii_not_space (a % 4 * 16) (by omega)
    simp only [b64encodeBytes, List.mem_cons, List.not_mem_nil, or_false]
    rintro ch (rfl | rfl | rfl | rfl)
    · exact h1
    · exact h2
    · exact ⟨by decide, by decide⟩
    · exact ⟨by decide, by decide⟩
  | [a, b], h => by
    have ha : a < 256 := h a (by simp)
    have hb : b < 256 := h b (by simp)
    have h1 := b64Char_ascii_not_space (a / 4) (by omega)
    have h2 := b64Char_ascii_not_space (a % 4 * 16 + b / 16) (by omega)
    have h3 := b64Char_ascii_not_space (b % 16 * 4) (by omega)
    simp only [b64encodeBytes, List.mem_cons, List.not_mem_nil, or_false]
    rintro ch (rfl | rfl | rfl | rfl)
    · exact h1
    · exact h2
    · exact h3
    · exact ⟨by decide, by decide⟩
  | a :: b :: c :: rest, h => by
    have ha : a < 256 := h a (by simp)
    have hb : b < 256 := h b (by simp)
    have hc : c < 256 := h c (by simp)
    have h1 := b64Char_ascii_not_space (a / 4) (by omega)
    have h2 := b64Char_ascii_not_space (a % 4 * 16 + b / 16) (by omega)
    have h3 := b64Char_ascii_not_space (b % 16 * 4 + c / 64) (by omega)
    have h4 := b64Char_ascii_not_space (c % 64) (by omega)
    have ih := b64encodeBytes_chars rest (fun x hx => h x (by simp [hx]))
    simp only [b64encodeBytes, List.mem_cons]
    rintro ch (rfl | rfl | rfl | rfl | hmem)
    · exact h1
    · exact h2
    · exact h3
    · exact h4
    · exact ih ch hmem

/-- Python-level round trip: `b64decode(b64encode(B)) = B`. -/
theorem pyB64Decode_b64encodeStr (B : List Nat) (h : ∀ b ∈ B, b < 256) :
    pyB64Decode (b64encodeStr B) = some B := by
  have hall : (String.mk (b64encodeBytes B)).data.all (fun c => c.toNat < 128) = true := by
    rw [List.all_eq_true]
    intro c hc
    simpa using (b64encodeBytes_chars B h c hc).1
  unfold pyB64Decode b64encodeStr
  rw [hall]
  simpa using a2bLoop_encode B h []

/-- The detector accepts every canonical base64 encoding. -/
theorem is_base64_encoded_b64encodeStr (B : List Nat) (h : ∀ b ∈ B, b < 256) :
    is_base64_encoded (b64encodeStr B) = true := by
  unfold is_base64_encoded
  rw [pyB64Decode_b64encodeStr B h]
  simp

theorem dropWhile_isPySpace_eq_self {l : List Char}
    (h : ∀ c ∈ l, isPySpace c = false) : l.dropWhile isPySpace = l := by
  cases l with
  | nil => rfl
  | cons a t =>
    rw [List.dropWhile_cons, h a (by simp)]
    simp

theorem pyStrip_eq_self {s : String} (h : ∀ c ∈ s.data, isPySpace c = false) :
    pyStrip s = s := by
  unfold pyStrip pyStripList
  rw [dropWhile_isPySpace_eq_self h,
    dropWhile_isPySpace_eq_self (fun c hc => h c (List.mem_reverse.mp hc)),
    List.reverse_reverse]

theorem pyStrip_b64encodeStr (B : List Nat) (h : ∀ b ∈ B, b < 256) :
    pyStrip (b64encodeStr B) = b64encodeStr B :=
  pyStrip_eq_self (fun c hc => (b64encodeBytes_chars B h c hc).2)

/-- Extraction from a canonical base64 encoding of text recovers exactly the
stripped non-empty lines of that text. -/
theorem extract_b64encodeStr (B : List Nat) (cs : List Char)
    (h : ∀ b ∈ B, b < 256) (hdec : utf8Decode B = some cs) :
    extract_configs_from_content (b64encodeStr B) = stripSplit (String.mk cs) '\n' := by
  unfold extract_configs_from_content
  rw [pyStrip_b64encodeStr B h, is_base64_encoded_b64encodeStr B h]
  simp [decode_base64_configs, pyB64Decode_b64encodeStr B h, hdec]

/-! ### Claim theorems -/

/-- C1: with the source list `"http://a,http://b"`, where `http://a` returns
the raw body `"vless://x\nfoo\nvmess://y\n"` and `http://b` returns the
base64 encoding of `"vmess://y\nss://z\n"`, the pipeline writes the output
file content `"ss://z\nvless://x\nvmess://y\n"`: `foo` is dropped for having
no recognized scheme, `vmess://y` is deduplicated across the two sources,
and entries are sorted. -/
theorem end_to_end_scenario :
    runPipeline scenarioFetch "http://a,http://b" = "ss://z\nvless://x\nvmess://y\n" := by
  decide

/-- C2: a body is classified as base64 exactly when decoding the trimmed
body succeeds and re-encoding the decoded bytes reproduces the trimmed body;
in particular the canonical base64 encoding of any byte sequence is
classified as base64, and when the bytes decode as text the extracted
entries are the stripped non-empty newline-split lines of that text. -/
theorem base64_detection_iff_roundtrip :
    (∀ s : String, is_base64_encoded (pyStrip s) = true ↔
      ∃ B : List Nat, pyB64Decode (pyStrip s) = some B ∧ b64encodeStr B = pyStrip s) ∧
    (∀ B : List Nat, (∀ b ∈ B, b < 256) →
      is_base64_encoded (b64encodeStr B) = true) ∧
    (∀ (B : List Nat) (cs : List Char), (∀ b ∈ B, b < 256) → utf8Decode B = some cs →
      extract_configs_from_content (b64encodeStr B) = stripSplit (String.mk cs) '\n') := by
  refine ⟨fun s => ?_, is_base64_encoded_b64encodeStr, extract_b64encodeStr⟩
  unfold is_base64_encoded
  cases hd : pyB64Decode (pyStrip s) with
  | none => simp
  | some d =>
    simp only [beq_iff_eq]
    constructor
    · intro he
      exact ⟨d, rfl, he⟩
    · rintro ⟨B, hB, he⟩
      cases Option.some.inj hB
      exact he

/-- C2 witness: the byte sequence `[97, 10, 98]` (the UTF-8 text
`"a\nb"`). -/
theorem base64_detection_iff_roundtrip_witness :
    is_base64_encoded (b64encodeStr [97, 10, 98]) = true ∧
    extract_configs_from_content (b64encodeStr [97, 10, 98]) =
      stripSplit (String.mk ['a', '\n', 'b']) '\n' :=
  ⟨base64_detection_iff_roundtrip.2.1 [97, 10, 98] (by decide),
   base64_detection_iff_roundtrip.2.2 [97, 10, 98] ['a', '\n', 'b']
     (by decide) (by decide)⟩

/-- C3: an entry passes the scheme filter exactly when its character list
literally starts with one of the five recognized scheme tags; the wrong-case
entry `VMESS://example` and the malformed entry `vmess:/example` are both
rejected. -/
theorem scheme_filter_prefix_iff :
    (∀ e : String, keepConfig e = true ↔
      ∃ t : List Char,
        e.data = "vmess://".data ++ t ∨ e.data = "vless://".data ++ t ∨
        e.data = "ss://".data ++ t ∨ e.data = "trojan://".data ++ t ∨
        e.data = "hysteria2://".data ++ t) ∧
    keepConfig "VMESS://example" = false ∧ keepConfig "vmess:/example" = false := by
  refine ⟨fun e => ?_, by decide, by decide⟩
  unfold keepConfig schemeTags
  simp only [List.any_cons, List.any_nil, Bool.and_eq_true, Bool.or_eq_true,
    List.isPrefixOf_iff_prefix, bne_iff_ne, ne_eq, Bool.false_eq_true, or_false]
  constructor
  · rintro ⟨hne, h | h | h | h | h⟩ <;>
      [skip; skip; skip; skip; skip] <;>
      · obtain ⟨t, ht⟩ := h
        exact ⟨t, by simp [← ht]⟩
  · rintro ⟨t, ht⟩
    have hd : e.data ≠ [] := by
      rcases ht with h | h | h | h | h <;> simp [h]
    have hne : ¬ e = "" := by
      intro he
      subst he
      exact hd rfl
    refine ⟨hne, ?_⟩
    rcases ht with h | h | h | h | h
    · exact Or.inl ⟨t, h.symm⟩
    · exact Or.inr (Or.inl ⟨t, h.symm⟩)
    · exact Or.inr (Or.inr (Or.inl ⟨t, h.symm⟩))
    · exact Or.inr (Or.inr (Or.inr (Or.inl ⟨t, h.symm⟩)))
    · exact Or.inr (Or.inr (Or.inr (Or.inr ⟨t, h.symm⟩)))

/-- C3 witness: `vmess://x` is retained. -/
theorem scheme_filter_prefix_iff_witness : keepConfig "vmess://x" = true :=
  (scheme_filter_prefix_iff.1 "vmess://x").mpr ⟨['x'], Or.inl (by decide)⟩

/-- C4 counterexample: the empty body is NOT classified as raw; the detector
returns `true` on it (the empty string base64-round-trips to itself). -/
theorem empty_body_not_raw : ¬ is_base64_encoded (pyStrip "") = false := by
  decide

/-- C4 amended: an empty body classifies as base64 (the empty string decodes
to zero bytes and re-encodes to itself), and an empty body yields zero
candidate entries downstream. -/
theorem empty_body_base64_zero_entries :
    is_base64_encoded (pyStrip "") = true ∧
    extract_configs_from_content "" = [] := by
  decide

/-- C10: at the public interface a successful fetch with an empty body is
indistinguishable from a fetch failure: the fetcher's failure result is the
empty string, and such a content takes the failed-fetch branch of the loop,
contributing zero entries and reporting a failed fetch (`false`) rather than
a success with no entries. -/
theorem empty_success_body_equals_failure :
    fetch_subscription_content (.success "") = fetch_subscription_content .failure ∧
    fetch_subscription_content .failure = "" ∧
    (∀ acc : List String,
      processOneBody acc (fetch_subscription_content (.success "")) = (acc, false)) := by
  refine ⟨rfl, rfl, fun acc => ?_⟩
  simp [processOneBody, fetch_subscription_content]

/-! ### The output ordering is a decidable linear order -/

theorem leChars_total : ∀ as bs : List Char, leChars as bs = true ∨ leChars bs as = true
  | [], _ => Or.inl rfl
  | _ :: _, [] => Or.inr rfl
  | a :: as, b :: bs => by
    unfold leChars
    rcases Nat.lt_trichotomy a.toNat b.toNat with h | h | h
    · simp [h]
    · simp only [h, Nat.lt_irrefl, if_false]
      exact leChars_total as bs
    · simp [h, Nat.lt_asymm h]

theorem leChars_trans : ∀ as bs cs : List Char,
    leChars as bs = true → leChars bs cs = true → leChars as cs = true
  | [], _, _, _, _ => rfl
  | _ :: _, [], _, h₁, _ => by cases h₁
  | _ :: _, _ :: _, [], _, h₂ => by cases h₂
  | a :: as, b :: bs, c :: cs, h₁, h₂ => by
    unfold leChars at h₁ h₂ ⊢
    have hab : ¬ b.toNat < a.toNat := by
      intro h
      rw [if_neg (Nat.lt_asymm h), if_pos h] at h₁
      cases h₁
    have hbc : ¬ c.toNat < b.toNat := by
      intro h
      rw [if_neg (Nat.lt_asymm h), if_pos h] at h₂
      cases h₂
    by_cases hac : a.toNat < c.toNat
    · rw [if_pos hac]
    · rw [if_neg hac, if_neg (by omega)]
      rw [if_neg (by omega), if_neg (by omega)] at h₁
      rw [if_neg (by omega), if_neg (by omega)] at h₂
      exact leChars_trans as bs cs h₁ h₂

theorem leChars_antisymm : ∀ as bs : List Char,
    leChars as bs = true → leChars bs as = true → as = bs
  | [], [], _, _ => rfl
  | [], _ :: _, _, h₂ => by cases h₂
  | _ :: _, [], h₁, _ => by cases h₁
  | a :: as, b :: bs, h₁, h₂ => by
    unfold leChars at h₁ h₂
    have hab : ¬ b.toNat < a.toNat := by
      intro h
      rw [if_neg (Nat.lt_asymm h), if_pos h] at h₁
      cases h₁
    have hba : ¬ a.toNat < b.toNat := by
      intro h
      rw [if_neg (Nat.lt_asymm h), if_pos h] at h₂
      cases h₂
    have hchar : a = b := by
      have heq : a.toNat = b.toNat := by omega
      have := congrArg Char.ofNat heq
      rwa [Char.ofNat_toNat, Char.ofNat_toNat] at this
    rw [if_neg hba, if_neg hab] at h₁
    rw [if_neg hab, if_neg hba] at h₂
    rw [hchar, leChars_antisymm as bs h₁ h₂]

instance : IsTotal String strLe := ⟨fun a b => leChars_total a.data b.data⟩

instance : IsTrans String strLe := ⟨fun a b c => leChars_trans a.data b.data c.data⟩

instance : IsAntisymm String strLe :=
  ⟨fun a b h₁ h₂ => by
    cases a
    cases b
    exact congrArg String.mk (leChars_antisymm _ _ h₁ h₂)⟩

/-! ### The aggregate set -/

theorem mem_setAdd {x c : String} {acc : List String} :
    x ∈ setAdd acc c ↔ x ∈ acc ∨ x = c := by
  unfold setAdd
  by_cases h : c ∈ acc
  · rw [if_pos h]
    constructor
    · exact Or.inl
    · rintro (hx | rfl)
      · exact hx
      · exact h
  · rw [if_neg h]
    simp

theorem nodup_setAdd {acc : List String} (h : acc.Nodup) (c : String) :
    (setAdd acc c).Nodup := by
  unfold setAdd
  by_cases hc : c ∈ acc
  · rwa [if_pos hc]
  · rw [if_neg hc]
    simp [List.nodup_append, h, hc]

theorem prefix_setAdd (acc : List String) (c : String) : acc <+: setAdd acc c := by
  unfold setAdd
  by_cases h : c ∈ acc
  · rw [if_pos h]
  · rw [if_neg h]
    exact List.prefix_append acc [c]

theorem mem_addConfigs (x : String) : ∀ (configs acc : List String),
    x ∈ addConfigs acc configs ↔ x ∈ acc ∨ (x ∈ configs ∧ keepConfig x = true)
  | [], acc => by simp [addConfigs]
  | c :: cs, acc => by
    rw [show addConfigs acc (c :: cs) =
        addConfigs (if keepConfig c then setAdd acc c else acc) cs from rfl,
      mem_addConfigs x cs]
    by_cases hk : keepConfig c = true
    · rw [if_pos hk, mem_setAdd]
      by_cases hx : x = c
      · subst hx
        simp [hk]
      · simp only [List.mem_cons, hx, false_or]
        tauto
    · rw [if_neg hk]
      by_cases hx : x = c
      · subst hx
        simp [hk]
      · simp only [List.mem_cons, hx, false_or]

theorem nodup_addConfigs : ∀ (configs acc : List String),
    acc.Nodup → (addConfigs acc configs).Nodup
  | [], _, h => h
  | c :: cs, acc, h => by
    rw [show addConfigs acc (c :: cs) =
        addConfigs (if keepConfig c then setAdd acc c else acc) cs from rfl]
    apply nodup_addConfigs
    split
    · exact nodup_setAdd h c
    · exact h

theorem prefix_addConfigs : ∀ (configs acc : List String), acc <+: addConfigs acc configs
  | [], acc => List.prefix_refl acc
  | c :: cs, acc => by
    rw [show addConfigs acc (c :: cs) =
        addConfigs (if keepConfig c then setAdd acc c else acc) cs from rfl]
    refine List.IsPrefix.trans ?_ (prefix_addConfigs cs _)
    split
    · exact prefix_setAdd acc c
    · exact List.prefix_refl acc

theorem mem_processURLs (fetch : String → String) (x : String) :
    ∀ (urls acc : List String),
      x ∈ processURLs fetch acc urls ↔
        x ∈ acc ∨ ∃ u, u ∈ urls ∧ fetch u ≠ "" ∧
          x ∈ extract_configs_from_content (fetch u) ∧ keepConfig x = true
  | [], acc => by simp [processURLs]
  | u :: us, acc => by
    rw [show processURLs fetch acc (u :: us) =
        processURLs fetch ((processOneBody acc (fetch u)).1) us from rfl,
      mem_processURLs fetch x us]
    by_cases hu : fetch u = ""
    · rw [hu]
      simp only [processOneBody, bne_self_eq_false, Bool.false_eq_true, if_false]
      constructor
      · rintro (hx | ⟨v, hv, hrest⟩)
        · exact Or.inl hx
        · exact Or.inr ⟨v, List.mem_cons_of_mem u hv, hrest⟩
      · rintro (hx | ⟨v, hv, hne, hrest⟩)
        · exact Or.inl hx
        · rcases List.mem_cons.mp hv with rfl | hv2
          · exact absurd hu hne
          · exact Or.inr ⟨v, hv2, hne, hrest⟩
    · have hb : (fetch u != "") = true := bne_iff_ne.mpr hu
      simp only [processOneBody, hb, if_true, mem_addConfigs]
      constructor
      · rintro ((hx | ⟨hex, hk⟩) | ⟨v, hv, hrest⟩)
        · exact Or.inl hx
        · exact Or.inr ⟨u, List.mem_cons_self u us, hu, hex, hk⟩
        · exact Or.inr ⟨v, List.mem_cons_of_mem u hv, hrest⟩
      · rintro (hx | ⟨v, hv, hne, hex, hk⟩)
        · exact Or.inl (Or.inl hx)
        · rcases List.mem_cons.mp hv with rfl | hv2
          · exact Or.inl (Or.inr ⟨hex, hk⟩)
          · exact Or.inr ⟨v, hv2, hne, hex, hk⟩

theorem nodup_processURLs (fetch : String → String) : ∀ (urls acc : List String),
    acc.Nodup → (processURLs fetch acc urls).Nodup
  | [], _, h => h
  | u :: us, acc, h => by
    rw [show processURLs fetch acc (u :: us) =
        processURLs fetch ((processOneBody acc (fetch u)).1) us from rfl]
    apply nodup_processURLs
    unfold processOneBody
    split
    · exact nodup_addConfigs _ _ h
    · exact h

theorem prefix_processURLs (fetch : String → String) : ∀ (urls acc : List String),
    acc <+: processURLs fetch acc urls
  | [], acc => List.prefix_refl acc
  | u :: us, acc => by
    rw [show processURLs fetch acc (u :: us) =
        processURLs fetch ((processOneBody acc (fetch u)).1) us from rfl]
    refine List.IsPrefix.trans ?_ (prefix_processURLs fetch us _)
    unfold processOneBody
    split
    · exact prefix_addConfigs _ _
    · exact List.prefix_refl acc

theorem processURLs_append (fetch : String → String) (acc l₁ l₂ : List String) :
    processURLs fetch acc (l₁ ++ l₂) = processURLs fetch (processURLs fetch acc l₁) l₂ :=
  List.foldl_append ..

/-- C5: for a fixed mapping from URLs to fetched bodies, permuting the URL
order of the source list never changes the final output-file content. -/
theorem order_independence (fetch : String → String) (raw₁ raw₂ : String)
    (h : (parseSourceList raw₁).Perm (parseSourceList raw₂)) :
    runPipeline fetch raw₁ = runPipeline fetch raw₂ := by
  unfold runPipeline write_sum_file process_subscription_file
  have h₁ := nodup_processURLs fetch (parseSourceList raw₁) [] List.nodup_nil
  have h₂ := nodup_processURLs fetch (parseSourceList raw₂) [] List.nodup_nil
  have hmem : ∀ x, x ∈ processURLs fetch [] (parseSourceList raw₁) ↔
      x ∈ processURLs fetch [] (parseSourceList raw₂) := by
    intro x
    rw [mem_processURLs, mem_processURLs]
    constructor
    · rintro (hx | ⟨u, hu, hrest⟩)
      · exact Or.inl hx
      · exact Or.inr ⟨u, h.mem_iff.mp hu, hrest⟩
    · rintro (hx | ⟨u, hu, hrest⟩)
      · exact Or.inl hx
      · exact Or.inr ⟨u, h.mem_iff.mpr hu, hrest⟩
  have hperm : (processURLs fetch [] (parseSourceList raw₁)).Perm
      (processURLs fetch [] (parseSourceList raw₂)) :=
    (List.perm_ext_iff_of_nodup h₁ h₂).mpr hmem
  have hsorted : List.insertionSort strLe (processURLs fetch [] (parseSourceList raw₁)) =
      List.insertionSort strLe (processURLs fetch [] (parseSourceList raw₂)) :=
    List.eq_of_perm_of_sorted
      ((List.perm_insertionSort strLe _).trans
        (hperm.trans (List.perm_insertionSort strLe _).symm))
      (List.sorted_insertionSort strLe _) (List.sorted_insertionSort strLe _)
  rw [hsorted]

/-- C5 witness: swapping the two scenario sources leaves the output file
unchanged. -/
theorem order_independence_witness :
    runPipeline scenarioFetch "http://a,http://b" =
      runPipeline scenarioFetch "http://b,http://a" :=
  order_independence scenarioFetch "http://a,http://b" "http://b,http://a" (by decide)

/-- C6: the aggregate set never contains duplicates, grows monotonically (the
earlier aggregate is a prefix of the later one) and never shrinks as sources
are processed, and a config entry contributed by two sources occurs exactly
once in the final sorted output. -/
theorem aggregate_set_invariants :
    (∀ (fetch : String → String) (urls acc : List String),
      acc.Nodup → (processURLs fetch acc urls).Nodup) ∧
    (∀ (fetch : String → String) (urls acc : List String),
      acc <+: processURLs fetch acc urls) ∧
    (∀ (fetch : String → String) (pre suf : List String),
      processURLs fetch [] pre <+: processURLs fetch [] (pre ++ suf)) ∧
    (∀ (fetch : String → String) (urls : List String) (x u₁ u₂ : String),
      u₁ ∈ urls → u₂ ∈ urls → fetch u₁ ≠ "" → fetch u₂ ≠ "" →
      x ∈ extract_configs_from_content (fetch u₁) →
      x ∈ extract_configs_from_content (fetch u₂) →
      keepConfig x = true →
      (List.insertionSort strLe (processURLs fetch [] urls)).count x = 1) := by
  refine ⟨fun fetch urls acc h => nodup_processURLs fetch urls acc h,
    fun fetch urls acc => prefix_processURLs fetch urls acc,
    fun fetch pre suf => ?_,
    fun fetch urls x u₁ u₂ h₁ h₂ hf₁ hf₂ hx₁ hx₂ hk => ?_⟩
  · rw [processURLs_append]
    exact prefix_processURLs fetch suf (processURLs fetch [] pre)
  · have hmem : x ∈ processURLs fetch [] urls :=
      (mem_processURLs fetch x urls []).mpr (Or.inr ⟨u₁, h₁, hf₁, hx₁, hk⟩)
    have hnd : (processURLs fetch [] urls).Nodup :=
      nodup_processURLs fetch urls [] List.nodup_nil
    have hperm := List.perm_insertionSort strLe (processURLs fetch [] urls)
    exact List.count_eq_one_of_mem (hperm.nodup_iff.mpr hnd) (hperm.mem_iff.mpr hmem)

/-- C6 witness: the same entry contributed by both of two sources appears
exactly once in the final sorted aggregate. -/
theorem aggregate_set_invariants_witness :
    (List.insertionSort strLe
      (processURLs (fun _ => "vmess://a") [] ["u", "v"])).count "vmess://a" = 1 :=
  aggregate_set_invariants.2.2.2 (fun _ => "vmess://a") ["u", "v"] "vmess://a" "u" "v"
    (by decide) (by decide) (by decide) (by decide) (by decide) (by decide) (by decide)

/-! ### The output writer -/

theorem string_append_data (a b : String) : (a ++ b).data = a.data ++ b.data := by
  cases a
  cases b
  rfl

theorem linesOut_cons_data (c : String) (cs : List String) :
    (linesOut (c :: cs)).data = c.data ++ '\n' :: (linesOut cs).data := by
  show (c ++ "\n" ++ linesOut cs).data = _
  rw [string_append_data, string_append_data, List.append_assoc]
  rfl

theorem splitOnChar_ne_nil (sep : Char) : ∀ l : List Char, splitOnChar sep l ≠ []
  | [] => by simp [splitOnChar]
  | c :: rest => by
    unfold splitOnChar
    cases h : splitOnChar sep rest with
    | nil => simp
    | cons g gs => by_cases hc : c = sep <;> simp [hc]

theorem splitOnChar_cons_sep (sep : Char) (r : List Char) :
    splitOnChar sep (sep :: r) = [] :: splitOnChar sep r := by
  obtain ⟨g, gs, hg⟩ := List.exists_cons_of_ne_nil (splitOnChar_ne_nil sep r)
  simp [splitOnChar, hg]

theorem splitOnChar_cons_ne {sep c : Char} (h : c ≠ sep) (r g : List Char)
    (gs : List (List Char)) (hg : splitOnChar sep r = g :: gs) :
    splitOnChar sep (c :: r) = (c :: g) :: gs := by
  simp [splitOnChar, hg, h]

theorem splitOnChar_append_sep (sep : Char) : ∀ a r : List Char, sep ∉ a →
    splitOnChar sep (a ++ sep :: r) = a :: splitOnChar sep r
  | [], r, _ => by simpa using splitOnChar_cons_sep sep r
  | c :: a, r, h => by
    have hc : c ≠ sep := by
      intro he
      exact h (by rw [he]; exact List.mem_cons_self sep a)
    have ih := splitOnChar_append_sep sep a r (fun hm => h (List.mem_cons_of_mem c hm))
    rw [List.cons_append]
    exact splitOnChar_cons_ne hc (a ++ sep :: r) a (splitOnChar sep r) ih

theorem pySplit_linesOut : ∀ l : List String, (∀ e ∈ l, '\n' ∉ e.data) →
    pySplit (linesOut l) '\n' = l ++ [""]
  | [], _ => by simp [linesOut, pySplit, splitOnChar]
  | c :: cs, h => by
    have ih := pySplit_linesOut cs (fun e he => h e (List.mem_cons_of_mem c he))
    unfold pySplit at ih ⊢
    rw [linesOut_cons_data,
      splitOnChar_append_sep '\n' c.data (linesOut cs).data (h c (List.mem_cons_self c cs)),
      List.map_cons, ih]
    rfl

/-- C7: the output writer emits the aggregate entries one per line in
lexicographic code-point order with a newline after every entry: splitting
the written content on newline yields a sorted permutation of the aggregate
followed by one final empty fragment (the trailing newline). -/
theorem output_writer_sorted_lines (configs : List String)
    (h : ∀ e ∈ configs, '\n' ∉ e.data) :
    ∃ l : List String, l.Perm configs ∧ List.Sorted strLe l ∧
      pySplit (write_sum_file configs) '\n' = l ++ [""] := by
  refine ⟨List.insertionSort strLe configs, List.perm_insertionSort strLe configs,
    List.sorted_insertionSort strLe configs, ?_⟩
  unfold write_sum_file
  exact pySplit_linesOut _ (fun e he => h e ((List.perm_insertionSort strLe configs).subset he))

/-- C7 witness: writing the aggregate `["b", "a"]`. -/
theorem output_writer_sorted_lines_witness :
    ∃ l : List String, l.Perm ["b", "a"] ∧ List.Sorted strLe l ∧
      pySplit (write_sum_file ["b", "a"]) '\n' = l ++ [""] :=
  output_writer_sorted_lines ["b", "a"] (by decide)

/-! ### Per-source error recovery -/

/-- C9: a fetch failure (modelled by the fetcher returning the empty string)
contributes zero entries and the loop continues with the remaining URLs
exactly as if the failing URL were absent; the failed-fetch branch leaves
the aggregate unchanged and reports the warning; a base64 decode failure
(either the byte decode or the UTF-8 text decode raising) yields zero
entries from that body. -/
theorem per_source_error_recovery :
    (∀ (fetch : String → String) (acc us₁ us₂ : List String) (u : String),
      fetch u = "" →
      processURLs fetch acc (us₁ ++ u :: us₂) = processURLs fetch acc (us₁ ++ us₂)) ∧
    (∀ acc : List String, processOneBody acc "" = (acc, false)) ∧
    (∀ content : String, pyB64Decode content = none →
      decode_base64_configs content = []) ∧
    (∀ (content : String) (bs : List Nat),
      pyB64Decode content = some bs → utf8Decode bs = none →
      decode_base64_configs content = [] ∧
      (is_base64_encoded (pyStrip content) = true →
        extract_configs_from_content content = [])) := by
  refine ⟨fun fetch acc us₁ us₂ u hu => ?_, fun acc => by simp [processOneBody],
    fun content h => ?_, fun content bs h₁ h₂ => ?_⟩
  · rw [processURLs_append, processURLs_append]
    show processURLs fetch ((processOneBody (processURLs fetch acc us₁) (fetch u)).1) us₂ = _
    rw [hu]
    simp [processOneBody]
  · unfold decode_base64_configs
    rw [h]
  · have hzero : decode_base64_configs content = [] := by
      simp [decode_base64_configs, h₁, h₂]
    refine ⟨hzero, fun hb => ?_⟩
    unfold extract_configs_from_content
    rw [hb]
    simpa using hzero

/-- C9 witness: a failing URL in the middle of the list is skipped, and the
body `"/w=="` (base64 of the byte `0xFF`, which is not valid UTF-8) yields
zero entries. -/
theorem per_source_error_recovery_witness :
    processURLs (fun _ => "") [] (["u"] ++ "v" :: ["w"]) =
      processURLs (fun _ => "") [] (["u"] ++ ["w"]) ∧
    decode_base64_configs (b64encodeStr [255]) = [] :=
  ⟨per_source_error_recovery.1 (fun _ => "") [] ["u"] ["w"] "v" rfl,
   (per_source_error_recovery.2.2.2 (b64encodeStr [255]) [255] (by decide) (by decide)).1⟩

/-! ### The source-list parser: the whole-content strip is redundant -/

theorem pyStripList_cons_space {c : Char} (l : List Char) (h : isPySpace c = true) :
    pyStripList (c :: l) = pyStripList l := by
  simp [pyStripList, List.dropWhile_cons, h]

theorem pyStripList_append_space (l : List Char) {c : Char} (h : isPySpace c = true) :
    pyStripList (l ++ [c]) = pyStripList l := by
  unfold pyStripList
  rw [List.dropWhile_append]
  by_cases he : (l.dropWhile isPySpace).isEmpty
  · rw [if_pos he, List.isEmpty_iff.mp he]
    simp [List.dropWhile_cons, h]
  · rw [if_neg he, List.reverse_append]
    simp [List.dropWhile_cons, h]

theorem stripSplit_cons_space {c : Char} (l : List Char) (h : isPySpace c = true) :
    stripSplit (String.mk (c :: l)) '\n' = stripSplit (String.mk l) '\n' := by
  by_cases hc : c = '\n'
  · subst hc
    unfold stripSplit pySplit
    rw [show (String.mk ('\n' :: l)).data = '\n' :: l from rfl,
      show (String.mk l).data = l from rfl, splitOnChar_cons_sep, List.map_cons,
      List.map_cons, List.filter_cons]
    simp [show pyStrip (String.mk []) = "" from rfl]
  · obtain ⟨g, gs, hg⟩ := List.exists_cons_of_ne_nil (splitOnChar_ne_nil '\n' l)
    unfold stripSplit pySplit
    rw [show (String.mk (c :: l)).data = c :: l from rfl,
      show (String.mk l).data = l from rfl,
      splitOnChar_cons_ne hc l g gs hg, hg, List.map_cons, List.map_cons,
      List.map_cons, List.map_cons,
      show pyStrip (String.mk (c :: g)) = pyStrip (String.mk g) from
        congrArg String.mk (pyStripList_cons_space g h)]

theorem splitOnChar_append_sep_nil (sep : Char) : ∀ l : List Char,
    splitOnChar sep (l ++ [sep]) = splitOnChar sep l ++ [[]]
  | [] => by simp [splitOnChar]
  | c :: l => by
    have ih := splitOnChar_append_sep_nil sep l
    obtain ⟨g, gs, hg⟩ := List.exists_cons_of_ne_nil (splitOnChar_ne_nil sep l)
    by_cases hc : c = sep
    · subst hc
      rw [List.cons_append, splitOnChar_cons_sep, splitOnChar_cons_sep, ih]
      simp
    · rw [List.cons_append,
        splitOnChar_cons_ne hc (l ++ [sep]) g (gs ++ [[]]) (by rw [ih, hg]; rfl),
        splitOnChar_cons_ne hc l g gs hg]
      simp

theorem splitOnChar_append_ne {sep c : Char} (hc : c ≠ sep) : ∀ l : List Char,
    splitOnChar sep (l ++ [c]) = appendToLast [c] (splitOnChar sep l)
  | [] => by simp [splitOnChar, appendToLast, hc]
  | a :: l => by
    have ih := splitOnChar_append_ne hc l
    obtain ⟨g, gs, hg⟩ := List.exists_cons_of_ne_nil (splitOnChar_ne_nil sep l)
    by_cases ha : a = sep
    · subst ha
      rw [List.cons_append, splitOnChar_cons_sep, splitOnChar_cons_sep, ih, hg]
      rfl
    · cases gs with
      | nil =>
        rw [List.cons_append,
          splitOnChar_cons_ne ha (l ++ [c]) (g ++ [c]) [] (by rw [ih, hg]; rfl),
          splitOnChar_cons_ne ha l g [] hg]
        rfl
      | cons g₂ gs₂ =>
        rw [List.cons_append,
          splitOnChar_cons_ne ha (l ++ [c]) g (appendToLast [c] (g₂ :: gs₂))
            (by rw [ih, hg]; rfl),
          splitOnChar_cons_ne ha l g (g₂ :: gs₂) hg]
        rfl

theorem stripFilter_appendToLast {c : Char} (h : isPySpace c = true) :
    ∀ gs : List (List Char), gs ≠ [] →
      ((appendToLast [c] gs).map (fun g => pyStrip (String.mk g))).filter
          (fun x => x != "") =
        (gs.map (fun g => pyStrip (String.mk g))).filter (fun x => x != "")
  | [], h0 => absurd rfl h0
  | [g], _ => by
    rw [show appendToLast [c] [g] = [g ++ [c]] from rfl, List.map_singleton,
      List.map_singleton,
      show pyStrip (String.mk (g ++ [c])) = pyStrip (String.mk g) from
        congrArg String.mk (pyStripList_append_space g h)]
  | g :: g₂ :: gs, _ => by
    have ih := stripFilter_appendToLast h (g₂ :: gs) (by simp)
    rw [show appendToLast [c] (g :: g₂ :: gs) = g :: appendToLast [c] (g₂ :: gs) from rfl,
      List.map_cons, List.map_cons, List.filter_cons, List.filter_cons, ih]

theorem stripSplit_append_space (l : List Char) {c : Char} (h : isPySpace c = true) :
    stripSplit (String.mk (l ++ [c])) '\n' = stripSplit (String.mk l) '\n' := by
  by_cases hc : c = '\n'
  · subst hc
    unfold stripSplit pySplit
    rw [show (String.mk (l ++ ['\n'])).data = l ++ ['\n'] from rfl,
      show (String.mk l).data = l from rfl, splitOnChar_append_sep_nil,
      List.map_append, List.map_append, List.filter_append]
    simp [show pyStrip (String.mk []) = "" from rfl]
  · unfold stripSplit pySplit
    rw [show (String.mk (l ++ [c])).data = l ++ [c] from rfl,
      show (String.mk l).data = l from rfl, splitOnChar_append_ne hc,
      List.map_map, List.map_map]
    exact stripFilter_appendToLast h (splitOnChar '\n' l) (splitOnChar_ne_nil '\n' l)

theorem stripSplit_space_left : ∀ (w l : List Char), (∀ c ∈ w, isPySpace c = true) →
    stripSplit (String.mk (w ++ l)) '\n' = stripSplit (String.mk l) '\n'
  | [], _, _ => rfl
  | c :: w, l, h => by
    rw [List.cons_append, stripSplit_cons_space (w ++ l) (h c (by simp))]
    exact stripSplit_space_left w l (fun x hx => h x (by simp [hx]))

theorem stripSplit_space_right : ∀ (w : List Char), (∀ c ∈ w, isPySpace c = true) →
    ∀ l : List Char, stripSplit (String.mk (l ++ w)) '\n' = stripSplit (String.mk l) '\n'
  | [], _, l => by rw [List.append_nil]
  | c :: w, h, l => by
    have h1 := stripSplit_space_right w (fun x hx => h x (by simp [hx])) (l ++ [c])
    rw [show l ++ c :: w = (l ++ [c]) ++ w by simp, h1,
      stripSplit_append_space l (h c (by simp))]

/-- Stripping the whole content before splitting into stripped non-empty
lines changes nothing: the code's initial `content.strip()` is redundant for
the surviving line set. -/
theorem stripSplit_pyStrip (s : String) :
    stripSplit (pyStrip s) '\n' = stripSplit s '\n' := by
  have hA : stripSplit (String.mk s.data) '\n' =
      stripSplit (String.mk (s.data.dropWhile isPySpace)) '\n' := by
    have h := stripSplit_space_left (s.data.takeWhile isPySpace)
      (s.data.dropWhile isPySpace) (fun c hc => List.mem_takeWhile_imp hc)
    rwa [List.takeWhile_append_dropWhile] at h
  have hd : s.data.dropWhile isPySpace =
      pyStripList s.data ++
        ((s.data.dropWhile isPySpace).reverse.takeWhile isPySpace).reverse := by
    unfold pyStripList
    conv_lhs => rw [← List.reverse_reverse (s.data.dropWhile isPySpace),
      ← List.takeWhile_append_dropWhile (p := isPySpace)
        (l := (s.data.dropWhile isPySpace).reverse)]
    rw [List.reverse_append]
  have hB : stripSplit (String.mk (s.data.dropWhile isPySpace)) '\n' =
      stripSplit (String.mk (pyStripList s.data)) '\n' := by
    rw [hd]
    exact stripSplit_space_right _
      (fun c hc => List.mem_takeWhile_imp (List.mem_reverse.mp hc)) _
  show stripSplit (String.mk (pyStripList s.data)) '\n' = stripSplit (String.mk s.data) '\n'
  rw [← hB, ← hA]

/-- C8: the code's URL collection agrees with the spec-worded parser (split
on newlines, trim each line, split non-empty lines on commas trimming each
fragment, discard empty fragments, preserve order); whitespace-only input
yields the empty sequence rather than an error; and a URL listed twice is
kept twice (no deduplication). -/
theorem source_list_parse_spec :
    (∀ raw : String, parseSourceList raw = specSourceListParse raw) ∧
    (∀ raw : String, raw.data.all isPySpace = true → parseSourceList raw = []) ∧
    parseSourceList "u,u" = ["u", "u"] := by
  refine ⟨fun raw => ?_, fun raw h => ?_, by decide⟩
  · unfold parseSourceList specSourceListParse
    rw [stripSplit_pyStrip]
  · have hnil : pyStripList raw.data = [] := by
      unfold pyStripList
      rw [List.dropWhile_eq_nil_iff.mpr (fun x hx => List.all_eq_true.mp h x hx)]
      rfl
    unfold parseSourceList
    rw [show pyStrip raw = "" from congrArg String.mk hnil]
    rfl

/-- C8 witness: a whitespace-only source list parses to the empty URL
sequence. -/
theorem source_list_parse_spec_witness : parseSourceList " \n  " = [] :=
  source_list_parse_spec.2.1 " \n  " (by decide)

end V2Sub
